import Mathlib

/-!
Verification development for the batch-processing core of the repository:
the resilient HTTP client (`ApiClient`), the SerpAPI service wrapper
(`SerpApiService.searchAmazon`), the task queue (`TaskQueue` over a
`p-queue` instance), and the `BatchProcessor` worker-pool logic
(`runBatch` / `processJob` / `abort`), together with the pure
content-insertion step of the per-job pipeline.

Each shallow embedding mirrors the TypeScript source; stateful and
asynchronous code is modelled as explicit state passing driven by a
schedule of atomic steps (one step per synchronous block between `await`
suspension points, matching the single-threaded event-loop semantics).
-/

namespace ApiClient

/-- Configuration of an `ApiClient` instance (src mirror of `ApiClientConfig`
with defaults applied: `retries`, `backoffMs`, `timeoutMs`). -/
structure Config where
  retries : Nat
  backoffMs : Nat
  timeoutMs : Nat
deriving DecidableEq, Repr

/-- Outcome of one `fetchWithTimeout` network attempt, as seen by
`ApiClient.request`: a response (ok or not, with status and body), an
`AbortError` (the per-attempt timeout fired), or a `TypeError`
(network-level failure). -/
inductive FetchOutcome where
  | ok (contentTypeJson : Bool) (body : String)
  | httpError (status : Nat) (body : Option String)
  | abortError
  | networkError
deriving DecidableEq, Repr

/-- Final outcome of `ApiClient.request`: a successful decoded body, a
thrown `ApiError` carrying the HTTP status, or the rethrown last
`AbortError` or `TypeError` after retries are exhausted. -/
inductive Outcome where
  | success (body : String)
  | apiError (status : Nat)
  | fetchError
deriving DecidableEq, Repr

/-- Observable trace of one `ApiClient.request` call: the number of network
attempts performed, the list of backoff sleeps (in milliseconds, in
order), and the final outcome. -/
structure Trace where
  attempts : Nat
  sleeps : List Nat
  outcome : Outcome
deriving DecidableEq, Repr

/-- Prepend one attempt (and its backoff sleep) to a trace. -/
def Trace.consSleep (ms : Nat) (t : Trace) : Trace :=
  { t with attempts := t.attempts + 1, sleeps := ms :: t.sleeps }

/-- The retry loop of `ApiClient.request`, from attempt number `attempt`
with `remaining = retries - attempt` retries still allowed. The endpoint
behaviour is a function from attempt number to `FetchOutcome`. Mirrors
the source: a 2xx response returns immediately; a 5xx response with
attempts remaining sleeps `backoffMs * 2^attempt` and retries, otherwise
an `ApiError` is thrown; `AbortError` and `TypeError` retry the same way
and are rethrown once attempts are exhausted; any other non-ok status
throws `ApiError` immediately. -/
def requestLoop (cfg : Config) (endpoint : Nat → FetchOutcome) :
    Nat → Nat → Trace
  | attempt, remaining =>
    match endpoint attempt, remaining with
    | .ok _ body, _ => ⟨1, [], .success body⟩
    | .httpError s _, remaining + 1 =>
      if 500 ≤ s ∧ s < 600 then
        (requestLoop cfg endpoint (attempt + 1) remaining).consSleep
          (cfg.backoffMs * 2 ^ attempt)
      else ⟨1, [], .apiError s⟩
    | .httpError s _, 0 => ⟨1, [], .apiError s⟩
    | .abortError, remaining + 1 =>
      (requestLoop cfg endpoint (attempt + 1) remaining).consSleep
        (cfg.backoffMs * 2 ^ attempt)
    | .abortError, 0 => ⟨1, [], .fetchError⟩
    | .networkError, remaining + 1 =>
      (requestLoop cfg endpoint (attempt + 1) remaining).consSleep
        (cfg.backoffMs * 2 ^ attempt)
    | .networkError, 0 => ⟨1, [], .fetchError⟩

/-- One call of `ApiClient.request`: the loop runs for
`attempt = 0 .. retries`. -/
def request (cfg : Config) (endpoint : Nat → FetchOutcome) : Trace :=
  requestLoop cfg endpoint 0 cfg.retries

/-- The loop starting with `remaining` allowed retries performs at most
`remaining + 1` network attempts. -/
theorem requestLoop_attempts_le (cfg : Config) (endpoint : Nat → FetchOutcome) :
    ∀ remaining attempt,
      (requestLoop cfg endpoint attempt remaining).attempts ≤ remaining + 1 := by
  intro remaining
  induction remaining with
  | zero =>
    intro attempt
    unfold requestLoop
    cases endpoint attempt <;> simp [Trace.consSleep]
  | succ r ih =>
    intro attempt
    unfold requestLoop
    cases h : endpoint attempt with
    | ok ct body => simp
    | httpError s b =>
      by_cases h5 : 500 ≤ s ∧ s < 600
      · simpa [h5, Trace.consSleep] using
          Nat.add_le_add_right (ih (attempt + 1)) 1
      · simp [h5]
    | abortError =>
      simpa [Trace.consSleep] using Nat.add_le_add_right (ih (attempt + 1)) 1
    | networkError =>
      simpa [Trace.consSleep] using Nat.add_le_add_right (ih (attempt + 1)) 1

/-- Backoff delays form a geometric progression: prepending the sleep of
attempt `attempt` to the delays of attempts `attempt + 1, ...` extends
the progression by one term. -/
theorem backoff_cons (b attempt k : Nat) :
    b * 2 ^ attempt :: (List.range k).map (fun j => b * 2 ^ (attempt + 1 + j)) =
    (List.range (k + 1)).map (fun j => b * 2 ^ (attempt + j)) := by
  rw [List.range_succ_eq_map, List.map_cons, List.map_map]
  refine congrArg₂ _ (by rw [Nat.add_zero]) ?_
  refine List.map_congr_left fun j _ => ?_
  have he : attempt + 1 + j = attempt + (j + 1) := by omega
  simp [Function.comp, he]

/-- Against an endpoint that always answers HTTP 500, the loop with
`remaining` retries left makes exactly `remaining + 1` attempts and ends
with an `ApiError` of status 500. -/
theorem requestLoop_always500 (cfg : Config) (body : Option String) :
    ∀ remaining attempt,
      requestLoop cfg (fun _ => .httpError 500 body) attempt remaining =
        ⟨remaining + 1,
         (List.range remaining).map (fun j => cfg.backoffMs * 2 ^ (attempt + j)),
         .apiError 500⟩ := by
  intro remaining
  induction remaining with
  | zero => intro attempt; unfold requestLoop; simp
  | succ r ih =>
    intro attempt
    unfold requestLoop
    simp only [ih (attempt + 1), Trace.consSleep]
    rw [Trace.mk.injEq] at *
    exact ⟨rfl, backoff_cons cfg.backoffMs attempt r, rfl⟩

/-- Whatever the endpoint does, the sleeps recorded by the retry loop from
attempt `attempt` form an initial segment of the geometric backoff
progression starting at `backoffMs * 2 ^ attempt`. -/
theorem requestLoop_sleeps_shape (cfg : Config) (endpoint : Nat → FetchOutcome) :
    ∀ remaining attempt, ∃ k,
      (requestLoop cfg endpoint attempt remaining).sleeps =
        (List.range k).map (fun j => cfg.backoffMs * 2 ^ (attempt + j)) := by
  intro remaining
  induction remaining with
  | zero =>
    intro attempt
    refine ⟨0, ?_⟩
    unfold requestLoop
    cases endpoint attempt <;> simp
  | succ r ih =>
    intro attempt
    unfold requestLoop
    cases he : endpoint attempt with
    | ok ct body => exact ⟨0, by simp⟩
    | httpError s b =>
      by_cases h5 : 500 ≤ s ∧ s < 600
      · obtain ⟨k, hk⟩ := ih (attempt + 1)
        exact ⟨k + 1, by
          simp only [h5, if_true, Trace.consSleep, hk]
          exact backoff_cons cfg.backoffMs attempt k⟩
      · exact ⟨0, by simp [h5]⟩
    | abortError =>
      obtain ⟨k, hk⟩ := ih (attempt + 1)
      exact ⟨k + 1, by
        simp only [Trace.consSleep, hk]
        exact backoff_cons cfg.backoffMs attempt k⟩
    | networkError =>
      obtain ⟨k, hk⟩ := ih (attempt + 1)
      exact ⟨k + 1, by
        simp only [Trace.consSleep, hk]
        exact backoff_cons cfg.backoffMs attempt k⟩

/-- Claim C5: with `retries = R`, a request against an endpoint that always
responds with HTTP 500 performs exactly `R + 1` network attempts and
raises the last encountered error, an `ApiError` carrying status 500;
and against any endpoint at all, a call performs at most `R + 1`
attempts. -/
theorem serp_retry_bound (cfg : Config) (body : Option String)
    (endpoint : Nat → FetchOutcome) :
    (request cfg (fun _ => .httpError 500 body)).attempts = cfg.retries + 1 ∧
    (request cfg (fun _ => .httpError 500 body)).outcome = .apiError 500 ∧
    (request cfg endpoint).attempts ≤ cfg.retries + 1 := by
  refine ⟨?_, ?_, requestLoop_attempts_le cfg endpoint cfg.retries 0⟩ <;>
    simp [request, requestLoop_always500 cfg body cfg.retries 0]

/-- Claim C6: in any run of `ApiClient.request`, the sleep inserted before
the retried attempt `j + 1` (equivalently, after the failed attempt `j`)
is exactly `backoffMs * 2 ^ j`: the delay before attempt `i ≥ 1` equals
`backoffMs * 2 ^ (i - 1)`. -/
theorem serp_backoff_growth (cfg : Config) (endpoint : Nat → FetchOutcome)
    (j : Nat) (h : j < (request cfg endpoint).sleeps.length) :
    (request cfg endpoint).sleeps.get ⟨j, h⟩ = cfg.backoffMs * 2 ^ j := by
  obtain ⟨k, hk⟩ := requestLoop_sleeps_shape cfg endpoint cfg.retries 0
  have hk' : (request cfg endpoint).sleeps =
      (List.range k).map (fun j => cfg.backoffMs * 2 ^ j) := by
    simpa [request] using hk
  rw [List.get_eq_getElem]
  have hj : j < k := by
    have hlen := h
    rw [hk'] at hlen
    simpa using hlen
  simp [hk']

/-- Witness for claim C6: with `backoffMs = 800` and two retries against a
permanently failing endpoint, the first recorded sleep is `800 * 2 ^ 0`. -/
theorem serp_backoff_growth_witness :
    (request ⟨2, 800, 0⟩ (fun _ => .httpError 500 none)).sleeps.get
      ⟨0, by decide⟩ = 800 * 2 ^ 0 :=
  serp_backoff_growth ⟨2, 800, 0⟩ (fun _ => .httpError 500 none) 0 (by decide)

end ApiClient

namespace SerpApi

/-- Environment visible to one `SerpApiService.searchAmazon` call: the cache
lookup result for each key (`none` models a null/undefined miss), the JS
truthiness of cached values, and the outcome of `SERP_CLIENT.getJson`
(resolving with data or rejecting with an error message). The
`cache.set` write performed on a successful call does not influence the
returned value and is therefore not part of the observable result. -/
structure Env (V : Type) where
  cacheGet : String → Option V
  truthy : V → Bool
  apiCall : Except String V

/-- Shallow embedding of `SerpApiService.searchAmazon`: a falsy (empty)
`apiKey` returns null; a truthy cached value is returned as-is; otherwise
the API is called inside try/catch, so a thrown error yields null. -/
def searchAmazon (env : Env V) (query apiKey : String) : Option V :=
  if apiKey = "" then none
  else
    let cacheKey := "serp:search:" ++ query.toLower
    match env.cacheGet cacheKey with
    | some cached =>
      if env.truthy cached then some cached
      else
        match env.apiCall with
        | .ok data => some data
        | .error _ => none
    | none =>
      match env.apiCall with
      | .ok data => some data
      | .error _ => none

/-- Claim C9: `searchAmazon` never rejects — the embedding is a total
function into `Option`, every throwing path of the source being caught —
and: an empty `apiKey` returns null; when the underlying API call throws
and no truthy cached value short-circuits it, the result is null; a
non-null result arises only from a truthy cache hit or a successful API
response. -/
theorem searchAmazon_never_rejects (env : Env V) (query apiKey : String) :
    (apiKey = "" → searchAmazon env query apiKey = none) ∧
    (∀ e, env.apiCall = .error e →
      (∀ v, env.cacheGet ("serp:search:" ++ query.toLower) = some v →
        env.truthy v = false) →
      searchAmazon env query apiKey = none) ∧
    (∀ v, searchAmazon env query apiKey = some v →
      (env.cacheGet ("serp:search:" ++ query.toLower) = some v ∧
        env.truthy v = true) ∨
      env.apiCall = .ok v) := by
  refine ⟨fun hk => by simp [searchAmazon, hk], ?_, ?_⟩
  · intro e he huntruthy
    unfold searchAmazon
    by_cases hk : apiKey = ""
    · simp [hk]
    · simp only [hk, if_false]
      cases hc : env.cacheGet ("serp:search:" ++ query.toLower) with
      | some v => simp [huntruthy v hc, he]
      | none => simp [he]
  · intro v hv
    unfold searchAmazon at hv
    by_cases hk : apiKey = ""
    · simp [hk] at hv
    · simp only [hk, if_false] at hv
      cases hc : env.cacheGet ("serp:search:" ++ query.toLower) with
      | some c =>
        rw [hc] at hv
        by_cases ht : env.truthy c
        · simp [ht] at hv
          subst hv
          exact Or.inl ⟨rfl, ht⟩
        · simp [ht] at hv
          cases ha : env.apiCall with
          | ok d => rw [ha] at hv; simp at hv; subst hv; exact Or.inr rfl
          | error e => rw [ha] at hv; simp at hv
      | none =>
        rw [hc] at hv
        cases ha : env.apiCall with
        | ok d => rw [ha] at hv; simp at hv; subst hv; exact Or.inr rfl
        | error e => rw [ha] at hv; simp at hv

/-- Witness for claim C9: with an empty cache and a rejecting API call,
`searchAmazon` returns null. -/
theorem searchAmazon_never_rejects_witness :
    searchAmazon (V := Nat) ⟨fun _ => none, fun _ => true, .error "boom"⟩ "Laptop" "key" = none :=
  (searchAmazon_never_rejects ⟨fun _ => none, fun _ => true, .error "boom"⟩
    "Laptop" "key").2.1 "boom" rfl (fun v hv => by simp at hv)

end SerpApi

namespace BatchInsert

/-- One detected product, as consumed by the insertion step of
`processJob`: `insertionIndex` is `none` when the field is absent or not
a number, and `box` is the HTML fragment `generateProductBoxHtml`
renders for it (the renderer is an external pure collaborator, so the
fragment is carried as data; the type is generic so that facts about the
algorithm apply at any element type). -/
structure DetectedProduct (α : Type) where
  insertionIndex : Option Int
  box : α
deriving DecidableEq, Repr

/-- The filter of the insertion step: keeps products whose
`insertionIndex` is a number and `>= 0`. -/
def validIndex (p : DetectedProduct α) : Bool :=
  match p.insertionIndex with
  | some i => decide (0 ≤ i)
  | none => false

/-- The sort of the insertion step: stable sort by descending
`insertionIndex` (the JS comparator subtracts, with `?? 0` defaults). -/
def sortDesc (ps : List (DetectedProduct α)) : List (DetectedProduct α) :=
  ps.mergeSort (fun a b => b.insertionIndex.getD 0 ≤ a.insertionIndex.getD 0)

/-- The splice loop of the insertion step: for each product in order,
insert its box at index `min (insertionIndex ?? length) length` of the
accumulated parts. -/
def spliceLoop (parts : List α) : List (DetectedProduct α) → List α
  | [] => parts
  | p :: rest =>
    let idx : Int := min (p.insertionIndex.getD (parts.length : Int)) (parts.length : Int)
    spliceLoop (List.insertIdx idx.toNat p.box parts) rest

/-- The full insertion step of `processJob` (stage 3, auto-publish path):
filter the detected products to valid indices, sort descending, and
splice each box into the content blocks. -/
def insertProductBoxes (blocks : List α) (ps : List (DetectedProduct α)) : List α :=
  spliceLoop blocks (sortDesc (ps.filter validIndex))

/-- The position of a valid product as a natural number. -/
def natPos (p : DetectedProduct α) : Nat :=
  (p.insertionIndex.getD 0).toNat

/-- Anchor lookup derived from a product list: the box of the product whose
insertion position is `i`, when there is one. -/
def posMap (ps : List (DetectedProduct α)) (i : Nat) : Option α :=
  (ps.find? (fun p => p.insertionIndex == some (i : Int))).map DetectedProduct.box

/-- Specification-side rendering of the insertion-ordering property: walk
the original blocks in order, and immediately before the block at offset
`i` emit the fragment anchored at `i`, when any. Every original block is
kept in order, every anchored fragment appears exactly at its intended
anchor offset, and fragments do not displace one another. -/
def anchored (f : Nat → Option α) : List α → Nat → List α
  | [], _ => []
  | b :: bs, i =>
    match f i with
    | some x => x :: b :: anchored f bs (i + 1)
    | none => b :: anchored f bs (i + 1)

end BatchInsert

namespace BatchProcessor

/-- Job status, mirroring the `BatchJob.status` union of the source. -/
inductive JStatus where
  | queued
  | processing
  | completed
  | failed
  | skipped
deriving DecidableEq, Repr

/-- One `BatchJob` record (the `id` and `post` fields are the job's index;
timestamps are logical-clock values standing in for `Date.now()`). -/
structure Job where
  status : JStatus
  progress : Nat
  productsFound : Nat
  error : Option String
  startTime : Option Nat
  endTime : Option Nat
deriving DecidableEq, Repr

/-- A freshly created job, as built by the job-list construction of
`runBatch`: queued, no progress, no results, no timestamps. -/
def initJob : Job :=
  ⟨.queued, 0, 0, none, none, none⟩

/-- Control state of one worker loop of `runBatch`, one constructor per
suspension point of `processJob`: `idle` is the loop head (about to check
the queue and the abort flag), the three middle states wait on the
`fetchRawPostContent`, `analyzeContentAndFindProduct` and
`pushToWordPress` awaits for job `j` (carrying the job's `startTime` and,
while publishing, its `productsFound`), and `done` is a worker whose loop
has exited. -/
inductive WStatus where
  | idle
  | fetching (j : Nat) (st : Nat)
  | analyzing (j : Nat) (st : Nat)
  | publishing (j : Nat) (st : Nat) (found : Nat)
  | done
deriving DecidableEq, Repr

/-- Global state of one `runBatch` run: the job array (indexed by job id),
the shared work queue of unclaimed job ids, the `abortRef` flag, the
`autoPublish` option, the worker pool, and a logical clock. -/
structure BState where
  numJobs : Nat
  jobs : Nat → Job
  queue : List Nat
  abortFlag : Bool
  autoPublish : Bool
  numWorkers : Nat
  wstate : Nat → WStatus
  clock : Nat

/-- Pointwise update of the job array at one id. -/
def updJob (f : Nat → Job) (j : Nat) (job : Job) : Nat → Job :=
  fun i => if i = j then job else f i

/-- Pointwise update of the worker pool at one worker index. -/
def updW (f : Nat → WStatus) (w : Nat) (v : WStatus) : Nat → WStatus :=
  fun i => if i = w then v else f i

/-- A worker resolves its job with result `res` and returns to its loop
head; the result replaces the job in the jobs array (the source's
`setJobs(prev => prev.map(...))` after `await processJob`). -/
def finishJob (s : BState) (w j : Nat) (res : Job) : BState :=
  { s with jobs := updJob s.jobs j res,
           wstate := updW s.wstate w .idle,
           clock := s.clock + 1 }

/-- The abort-skip result of `processJob`: the pristine job spread with
status `skipped` — no progress, no error, and crucially no `startTime`
or `endTime`. -/
def skippedJob : Job :=
  { initJob with status := .skipped }

/-- A failure result of `processJob` (catch path or empty content):
status `failed`, progress 0, the truncated message, both timestamps. -/
def failedJob (msg : String) (st now : Nat) : Job :=
  { initJob with status := .failed, error := some msg,
                 startTime := some st, endTime := some now }

/-- The success result of `processJob`: status `completed`, progress 100,
the discovered-product count, both timestamps. -/
def completedJob (found st now : Nat) : Job :=
  { initJob with status := .completed, progress := 100,
                 productsFound := found, startTime := some st, endTime := some now }

/-- One schedulable event of a run: the `abort()` call; worker `w` at its
loop head claiming the next job (or exiting); and the resolution of each
awaited pipeline stage of worker `w`'s current job, with the
environment's choice of outcome (`ok`, and for the fetch whether the
content was too short, for the analysis how many products were found). -/
inductive Action where
  | abort
  | claim (w : Nat)
  | fetchDone (w : Nat) (ok : Bool) (short : Bool)
  | analyzeDone (w : Nat) (ok : Bool) (found : Nat)
  | publishDone (w : Nat) (ok : Bool)
deriving DecidableEq, Repr

/-- Small-step semantics of `runBatch` / `processJob` / `abort`. Each step
is one synchronous block of the source between `await` suspension
points:

* `abort` sets `abortRef.current` (and nothing else);
* `claim w`: the worker's `while` condition — with an empty queue or the
  abort flag set the loop exits; otherwise the worker shifts the next
  job id, marks the job processing (progress 10, `startTime`), and
  issues the fetch (the in-loop abort re-check of `processJob` cannot
  observe a different flag value, as no suspension separates it from the
  `while` condition);
* `fetchDone`: a rejected fetch hits the catch (job failed); a resolved
  fetch first honours the abort flag (job skipped, via the pristine-job
  spread), then rejects short content (job failed), else records
  progress 30 and issues the analysis;
* `analyzeDone`: a rejection hits the catch; a resolution honours the
  abort flag (job skipped), then either issues the publish (progress 85,
  products recorded) when products were found and auto-publish is on, or
  resolves the job completed;
* `publishDone`: resolves the job completed or failed — with no abort
  check, matching the source.

Steps whose worker is out of range or not at the matching suspension
point leave the state unchanged. -/
def step (s : BState) : Action → BState
  | .abort => { s with abortFlag := true }
  | .claim w =>
    if w < s.numWorkers then
      match s.wstate w with
      | .idle =>
        match s.queue with
        | [] => { s with wstate := updW s.wstate w .done }
        | j :: rest =>
          if s.abortFlag then { s with wstate := updW s.wstate w .done }
          else
            { s with queue := rest,
                     jobs := updJob s.jobs j
                       { s.jobs j with status := .processing, progress := 10,
                                       startTime := some s.clock },
                     wstate := updW s.wstate w (.fetching j s.clock),
                     clock := s.clock + 1 }
      | _ => s
    else s
  | .fetchDone w ok short =>
    if w < s.numWorkers then
      match s.wstate w with
      | .fetching j st =>
        if !ok then finishJob s w j (failedJob "fetch error" st s.clock)
        else if s.abortFlag then finishJob s w j skippedJob
        else if short then finishJob s w j (failedJob "No content found" st s.clock)
        else
          { s with jobs := updJob s.jobs j { s.jobs j with progress := 30 },
                   wstate := updW s.wstate w (.analyzing j st),
                   clock := s.clock + 1 }
      | _ => s
    else s
  | .analyzeDone w ok found =>
    if w < s.numWorkers then
      match s.wstate w with
      | .analyzing j st =>
        if !ok then finishJob s w j (failedJob "analyze error" st s.clock)
        else if s.abortFlag then finishJob s w j skippedJob
        else if 0 < found && s.autoPublish then
          { s with jobs := updJob s.jobs j
                     { s.jobs j with progress := 85, productsFound := found },
                   wstate := updW s.wstate w (.publishing j st found),
                   clock := s.clock + 1 }
        else finishJob s w j (completedJob found st s.clock)
      | _ => s
    else s
  | .publishDone w ok =>
    if w < s.numWorkers then
      match s.wstate w with
      | .publishing j st found =>
        if ok then finishJob s w j (completedJob found st s.clock)
        else finishJob s w j (failedJob "publish error" st s.clock)
      | _ => s
    else s

/-- The state reached after a schedule of events. -/
def run (s : BState) (acts : List Action) : BState :=
  acts.foldl step s

/-- The state at the start of `runBatch`, after the synchronous prologue
that builds the job list: `numJobs` queued jobs with ids `0 ..
numJobs - 1` in the shared queue, the abort flag clear, and
`concurrency` workers at their loop heads. -/
def initState (numJobs concurrency : Nat) (autoPublish : Bool) : BState :=
  { numJobs := numJobs,
    jobs := fun _ => initJob,
    queue := List.range numJobs,
    abortFlag := false,
    autoPublish := autoPublish,
    numWorkers := concurrency,
    wstate := fun _ => .idle,
    clock := 0 }

/-- The job id a worker currently holds, if any. -/
def heldId : WStatus → Option Nat
  | .fetching j _ => some j
  | .analyzing j _ => some j
  | .publishing j _ _ => some j
  | _ => none

/-- The number of jobs of a given status. -/
def statusCount (s : BState) (st : JStatus) : Nat :=
  ((List.range s.numJobs).filter (fun j => (s.jobs j).status == st)).length

/-- The number of jobs currently in `Processing`. -/
def procCount (s : BState) : Nat :=
  statusCount s .processing

/-- `Promise.all(workers)` has resolved: every worker loop has exited. -/
def resolved (s : BState) : Bool :=
  (List.range s.numWorkers).all (fun w => s.wstate w == .done)

end BatchProcessor

namespace BatchProcessor

theorem updJob_same (f : Nat → Job) (j : Nat) (job : Job) :
    updJob f j job j = job := by simp [updJob]

theorem updJob_other (f : Nat → Job) (j i : Nat) (job : Job) (h : i ≠ j) :
    updJob f j job i = f i := by simp [updJob, h]

theorem updW_same (f : Nat → WStatus) (w : Nat) (v : WStatus) :
    updW f w v w = v := by simp [updW]

theorem updW_other (f : Nat → WStatus) (w i : Nat) (v : WStatus) (h : i ≠ w) :
    updW f w v i = f i := by simp [updW, h]

/-- Run invariant of the worker pool: every held job id belongs to a job in
`Processing` and to exactly one worker; every `Processing` job is held;
every job id still in the shared queue is `Queued`; the queue has no
duplicates; and a job's `endTime` is set exactly when its status is
`Completed` or `Failed`. -/
structure Inv (s : BState) : Prop where
  held_processing : ∀ w j, w < s.numWorkers → heldId (s.wstate w) = some j →
    (s.jobs j).status = .processing
  held_unique : ∀ w1 w2 j, w1 < s.numWorkers → w2 < s.numWorkers →
    heldId (s.wstate w1) = some j → heldId (s.wstate w2) = some j → w1 = w2
  processing_held : ∀ j, (s.jobs j).status = .processing →
    ∃ w, w < s.numWorkers ∧ heldId (s.wstate w) = some j
  queue_queued : ∀ j ∈ s.queue, (s.jobs j).status = .queued
  queue_nodup : s.queue.Nodup
  time_iff : ∀ j, (s.jobs j).endTime.isSome ↔
    ((s.jobs j).status = .completed ∨ (s.jobs j).status = .failed)

theorem inv_init (N K : Nat) (ap : Bool) : Inv (initState N K ap) := by
  refine ⟨?_, ?_, ?_, ?_, ?_, ?_⟩
  · intro w j _ hw
    simp [initState, heldId] at hw
  · intro w1 w2 j _ _ hw
    simp [initState, heldId] at hw
  · intro j hj
    simp [initState, initJob] at hj
  · intro j _
    simp [initState, initJob]
  · exact List.nodup_range N
  · intro j
    simp [initState, initJob]

/-- Exiting a worker whose loop head found nothing to do preserves the
invariant. -/
theorem inv_exit (s : BState) (hs : Inv s) (w : Nat)
    (hidle : s.wstate w = .idle) :
    Inv { s with wstate := updW s.wstate w .done } := by
  obtain ⟨hp, hu, hph, hq, hnd, ht⟩ := hs
  refine ⟨?_, ?_, ?_, ?_, ?_, ?_⟩
  · intro w' j hw' hj
    have hw2 : w' < s.numWorkers := hw'
    have hj2 : heldId (updW s.wstate w .done w') = some j := hj
    show (s.jobs j).status = .processing
    by_cases hww : w' = w
    · subst hww
      rw [updW_same] at hj2
      simp [heldId] at hj2
    · rw [updW_other _ _ _ _ hww] at hj2
      exact hp w' j hw2 hj2
  · intro w1 w2 j h1 h2 hj1 hj2
    have h1b : w1 < s.numWorkers := h1
    have h2b : w2 < s.numWorkers := h2
    have hj1b : heldId (updW s.wstate w .done w1) = some j := hj1
    have hj2b : heldId (updW s.wstate w .done w2) = some j := hj2
    by_cases h1w : w1 = w
    · subst h1w
      rw [updW_same] at hj1b
      simp [heldId] at hj1b
    · by_cases h2w : w2 = w
      · subst h2w
        rw [updW_same] at hj2b
        simp [heldId] at hj2b
      · rw [updW_other _ _ _ _ h1w] at hj1b
        rw [updW_other _ _ _ _ h2w] at hj2b
        exact hu w1 w2 j h1b h2b hj1b hj2b
  · intro j hj
    have hj2 : (s.jobs j).status = .processing := hj
    obtain ⟨w', hw', hjw'⟩ := hph j hj2
    have hww : w' ≠ w := by
      intro hwe
      rw [hwe, hidle] at hjw'
      simp [heldId] at hjw'
    exact ⟨w', hw', show heldId (updW s.wstate w .done w') = some j by
      rwa [updW_other _ _ _ _ hww]⟩
  · intro j hj
    exact hq j hj
  · exact hnd
  · intro j
    exact ht j

/-- Resolving the job a worker holds with a terminal result record whose
`endTime` agrees with its status preserves the invariant. -/
theorem inv_finish (s : BState) (hs : Inv s) (w j : Nat) (res : Job)
    (hw : w < s.numWorkers) (hheld : heldId (s.wstate w) = some j)
    (hres : res.status ≠ .processing)
    (hrest : res.endTime.isSome ↔ (res.status = .completed ∨ res.status = .failed)) :
    Inv (finishJob s w j res) := by
  obtain ⟨hp, hu, hph, hq, hnd, ht⟩ := hs
  refine ⟨?_, ?_, ?_, ?_, ?_, ?_⟩
  · intro w' j' hw' hj'
    have hw2 : w' < s.numWorkers := hw'
    have hj2 : heldId (updW s.wstate w .idle w') = some j' := hj'
    show (updJob s.jobs j res j').status = .processing
    by_cases hww : w' = w
    · subst hww
      rw [updW_same] at hj2
      simp [heldId] at hj2
    · rw [updW_other _ _ _ _ hww] at hj2
      have hj'p := hp w' j' hw2 hj2
      have hne : j' ≠ j := by
        intro hjj
        rw [hjj] at hj2
        exact hww (hu w' w j hw2 hw hj2 hheld)
      rwa [updJob_other _ _ _ _ hne]
  · intro w1 w2 j' h1 h2 hj1 hj2
    have h1b : w1 < s.numWorkers := h1
    have h2b : w2 < s.numWorkers := h2
    have hj1b : heldId (updW s.wstate w .idle w1) = some j' := hj1
    have hj2b : heldId (updW s.wstate w .idle w2) = some j' := hj2
    by_cases h1w : w1 = w
    · subst h1w
      rw [updW_same] at hj1b
      simp [heldId] at hj1b
    · by_cases h2w : w2 = w
      · subst h2w
        rw [updW_same] at hj2b
        simp [heldId] at hj2b
      · rw [updW_other _ _ _ _ h1w] at hj1b
        rw [updW_other _ _ _ _ h2w] at hj2b
        exact hu w1 w2 j' h1b h2b hj1b hj2b
  · intro j' hj'
    have hj2 : (updJob s.jobs j res j').status = .processing := hj'
    by_cases hne : j' = j
    · rw [hne, updJob_same] at hj2
      exact absurd hj2 hres
    · rw [updJob_other _ _ _ _ hne] at hj2
      obtain ⟨w', hw', hjw'⟩ := hph j' hj2
      have hww : w' ≠ w := by
        intro hwe
        rw [hwe, hheld] at hjw'
        exact hne (Option.some.inj hjw').symm
      exact ⟨w', hw', show heldId (updW s.wstate w .idle w') = some j' by
        rwa [updW_other _ _ _ _ hww]⟩
  · intro j' hj'
    have hj2 : j' ∈ s.queue := hj'
    show (updJob s.jobs j res j').status = .queued
    have hne : j' ≠ j := by
      intro hjj
      have h1 := hp w j hw hheld
      rw [← hjj, hq j' hj2] at h1
      simp at h1
    rw [updJob_other _ _ _ _ hne]
    exact hq j' hj2
  · exact hnd
  · intro j'
    show (updJob s.jobs j res j').endTime.isSome ↔
      ((updJob s.jobs j res j').status = .completed ∨
       (updJob s.jobs j res j').status = .failed)
    by_cases hne : j' = j
    · rw [hne, updJob_same]
      exact hrest
    · rw [updJob_other _ _ _ _ hne]
      exact ht j'

/-- Advancing a worker to the next suspension point of the same job, with a
job update that keeps the status and `endTime`, preserves the
invariant. -/
theorem inv_advance (s : BState) (hs : Inv s) (w j : Nat) (v : WStatus)
    (newjob : Job) (hw : w < s.numWorkers)
    (hheld : heldId (s.wstate w) = some j) (hv : heldId v = some j)
    (hstat : newjob.status = (s.jobs j).status)
    (hend : newjob.endTime = (s.jobs j).endTime) :
    Inv { s with jobs := updJob s.jobs j newjob,
                 wstate := updW s.wstate w v,
                 clock := s.clock + 1 } := by
  obtain ⟨hp, hu, hph, hq, hnd, ht⟩ := hs
  refine ⟨?_, ?_, ?_, ?_, ?_, ?_⟩
  · intro w' j' hw' hj'
    have hw2 : w' < s.numWorkers := hw'
    have hj2 : heldId (updW s.wstate w v w') = some j' := hj'
    show (updJob s.jobs j newjob j').status = .processing
    by_cases hww : w' = w
    · subst hww
      rw [updW_same, hv] at hj2
      obtain rfl := Option.some.inj hj2
      rw [updJob_same, hstat]
      exact hp w' j hw2 hheld
    · rw [updW_other _ _ _ _ hww] at hj2
      have hj'p := hp w' j' hw2 hj2
      by_cases hne : j' = j
      · rw [hne, updJob_same, hstat]
        rw [hne] at hj'p
        exact hj'p
      · rwa [updJob_other _ _ _ _ hne]
  · intro w1 w2 j' h1 h2 hj1 hj2
    have h1b : w1 < s.numWorkers := h1
    have h2b : w2 < s.numWorkers := h2
    have hj1b : heldId (updW s.wstate w v w1) = some j' := hj1
    have hj2b : heldId (updW s.wstate w v w2) = some j' := hj2
    by_cases h1w : w1 = w
    · subst h1w
      rw [updW_same, hv] at hj1b
      obtain rfl := Option.some.inj hj1b
      by_cases h2w : w2 = w1
      · exact h2w.symm
      · rw [updW_other _ _ _ _ h2w] at hj2b
        exact (hu w2 w1 j h2b h1b hj2b hheld).symm
    · rw [updW_other _ _ _ _ h1w] at hj1b
      by_cases h2w : w2 = w
      · subst h2w
        rw [updW_same, hv] at hj2b
        obtain rfl := Option.some.inj hj2b
        exact hu w1 w2 j h1b h2b hj1b hheld
      · rw [updW_other _ _ _ _ h2w] at hj2b
        exact hu w1 w2 j' h1b h2b hj1b hj2b
  · intro j' hj'
    have hj2 : (updJob s.jobs j newjob j').status = .processing := hj'
    by_cases hne : j' = j
    · refine ⟨w, hw, ?_⟩
      show heldId (updW s.wstate w v w) = some j'
      rw [updW_same, hv, hne]
    · rw [updJob_other _ _ _ _ hne] at hj2
      obtain ⟨w', hw', hjw'⟩ := hph j' hj2
      have hww : w' ≠ w := by
        intro hwe
        rw [hwe, hheld] at hjw'
        exact hne (Option.some.inj hjw').symm
      exact ⟨w', hw', show heldId (updW s.wstate w v w') = some j' by
        rwa [updW_other _ _ _ _ hww]⟩
  · intro j' hj'
    have hj2 : j' ∈ s.queue := hj'
    show (updJob s.jobs j newjob j').status = .queued
    have hne : j' ≠ j := by
      intro hjj
      have h1 := hp w j hw hheld
      rw [← hjj, hq j' hj2] at h1
      simp at h1
    rw [updJob_other _ _ _ _ hne]
    exact hq j' hj2
  · exact hnd
  · intro j'
    show (updJob s.jobs j newjob j').endTime.isSome ↔
      ((updJob s.jobs j newjob j').status = .completed ∨
       (updJob s.jobs j newjob j').status = .failed)
    by_cases hne : j' = j
    · rw [hne, updJob_same, hend, hstat]
      exact ht j
    · rw [updJob_other _ _ _ _ hne]
      exact ht j'

end BatchProcessor

namespace BatchProcessor

/-- The endTime-status agreement is preserved by a pointwise job update
whose new record itself agrees. -/
theorem time_iff_upd (f : Nat → Job) (j : Nat) (nj : Job)
    (hf : ∀ i, (f i).endTime.isSome = true ↔
      ((f i).status = .completed ∨ (f i).status = .failed))
    (hnj : nj.endTime.isSome = true ↔ (nj.status = .completed ∨ nj.status = .failed)) :
    ∀ i, (updJob f j nj i).endTime.isSome = true ↔
      ((updJob f j nj i).status = .completed ∨ (updJob f j nj i).status = .failed) := by
  intro i
  by_cases h : i = j
  · rw [h, updJob_same]
    exact hnj
  · rw [updJob_other _ _ _ _ h]
    exact hf i

/-- Claiming the next queued job preserves the invariant. -/
theorem inv_claim (s : BState) (hs : Inv s) (w j : Nat) (rest : List Nat)
    (hw : w < s.numWorkers) (hidle : s.wstate w = .idle)
    (hqe : s.queue = j :: rest) :
    Inv { s with queue := rest,
                 jobs := updJob s.jobs j
                   { s.jobs j with status := .processing, progress := 10,
                                   startTime := some s.clock },
                 wstate := updW s.wstate w (.fetching j s.clock),
                 clock := s.clock + 1 } := by
  obtain ⟨hp, hu, hph, hq, hnd, ht⟩ := hs
  have hqj : (s.jobs j).status = .queued := hq j (by rw [hqe]; exact List.mem_cons_self j rest)
  have hjrest : j ∉ rest := by
    have := hnd
    rw [hqe] at this
    exact (List.nodup_cons.mp this).1
  have hrestnd : rest.Nodup := by
    have := hnd
    rw [hqe] at this
    exact (List.nodup_cons.mp this).2
  refine ⟨?_, ?_, ?_, ?_, ?_, ?_⟩
  · intro w' j' hw' hj'
    have hw2 : w' < s.numWorkers := hw'
    have hj2 : heldId (updW s.wstate w (.fetching j s.clock) w') = some j' := hj'
    show (updJob s.jobs j _ j').status = .processing
    by_cases hww : w' = w
    · subst hww
      rw [updW_same] at hj2
      simp only [heldId] at hj2
      obtain rfl := Option.some.inj hj2
      rw [updJob_same]
    · rw [updW_other _ _ _ _ hww] at hj2
      have hj'p := hp w' j' hw2 hj2
      have hne : j' ≠ j := by
        intro hjj
        rw [hjj, hqj] at hj'p
        simp at hj'p
      rwa [updJob_other _ _ _ _ hne]
  · intro w1 w2 j' h1 h2 hj1 hj2
    have h1b : w1 < s.numWorkers := h1
    have h2b : w2 < s.numWorkers := h2
    have hj1b : heldId (updW s.wstate w (.fetching j s.clock) w1) = some j' := hj1
    have hj2b : heldId (updW s.wstate w (.fetching j s.clock) w2) = some j' := hj2
    by_cases h1w : w1 = w
    · subst h1w
      rw [updW_same] at hj1b
      simp only [heldId] at hj1b
      obtain rfl := Option.some.inj hj1b
      by_cases h2w : w2 = w1
      · exact h2w.symm
      · rw [updW_other _ _ _ _ h2w] at hj2b
        have hcontra := hp w2 j h2b hj2b
        rw [hqj] at hcontra
        simp at hcontra
    · rw [updW_other _ _ _ _ h1w] at hj1b
      by_cases h2w : w2 = w
      · subst h2w
        rw [updW_same] at hj2b
        simp only [heldId] at hj2b
        obtain rfl := Option.some.inj hj2b
        have hcontra := hp w1 j h1b hj1b
        rw [hqj] at hcontra
        simp at hcontra
      · rw [updW_other _ _ _ _ h2w] at hj2b
        exact hu w1 w2 j' h1b h2b hj1b hj2b
  · intro j' hj'
    have hj2 : (updJob s.jobs j
        { s.jobs j with status := .processing, progress := 10,
                        startTime := some s.clock } j').status = .processing := hj'
    by_cases hne : j' = j
    · refine ⟨w, hw, ?_⟩
      show heldId (updW s.wstate w (.fetching j s.clock) w) = some j'
      rw [updW_same, hne]
      rfl
    · rw [updJob_other _ _ _ _ hne] at hj2
      obtain ⟨w', hw', hjw'⟩ := hph j' hj2
      have hww : w' ≠ w := by
        intro hwe
        rw [hwe, hidle] at hjw'
        simp [heldId] at hjw'
      exact ⟨w', hw', show heldId (updW s.wstate w (.fetching j s.clock) w') = some j' by
        rwa [updW_other _ _ _ _ hww]⟩
  · intro j' hj'
    have hj2 : j' ∈ rest := hj'
    show (updJob s.jobs j _ j').status = .queued
    have hne : j' ≠ j := fun hjj => hjrest (hjj ▸ hj2)
    rw [updJob_other _ _ _ _ hne]
    exact hq j' (by rw [hqe]; exact List.mem_cons_of_mem j hj2)
  · exact hrestnd
  · intro j'
    have hend : (s.jobs j).endTime.isSome = false := by
      have hti := ht j
      rw [hqj] at hti
      simpa using hti
    exact time_iff_upd s.jobs j { s.jobs j with status := .processing, progress := 10, startTime := some s.clock } ht (by simp [hend]) j'

/-- Transfer of the invariant along equality of the relevant fields. -/
theorem Inv.congr (s t : BState) (hs : Inv s)
    (hjobs : t.jobs = s.jobs) (hq : t.queue = s.queue)
    (hnw : t.numWorkers = s.numWorkers) (hws : t.wstate = s.wstate) : Inv t := by
  obtain ⟨hp, hu, hph, hqq, hnd, ht⟩ := hs
  refine ⟨?_, ?_, ?_, ?_, ?_, ?_⟩
  · intro w j hw hj
    rw [hnw] at hw
    rw [hws] at hj
    rw [hjobs]
    exact hp w j hw hj
  · intro w1 w2 j h1 h2 hj1 hj2
    rw [hnw] at h1 h2
    rw [hws] at hj1 hj2
    exact hu w1 w2 j h1 h2 hj1 hj2
  · intro j hj
    rw [hjobs] at hj
    rw [hnw, hws]
    exact hph j hj
  · intro j hj
    rw [hq] at hj
    rw [hjobs]
    exact hqq j hj
  · rw [hq]
    exact hnd
  · intro j
    rw [hjobs]
    exact ht j

/-- Every step of the semantics preserves the run invariant. -/
theorem inv_step (s : BState) (hs : Inv s) (a : Action) : Inv (step s a) := by
  cases a with
  | abort =>
    obtain ⟨hp, hu, hph, hq, hnd, ht⟩ := hs
    exact ⟨hp, hu, hph, hq, hnd, ht⟩
  | claim w =>
    simp only [step]
    by_cases hw : w < s.numWorkers
    · simp only [hw, if_true]
      cases hws : s.wstate w with
      | idle =>
        cases hqe : s.queue with
        | nil =>
          exact Inv.congr _ _ (inv_exit s hs w hws) rfl hqe.symm rfl rfl
        | cons j rest =>
          cases hab : s.abortFlag with
          | true =>
            exact Inv.congr _ _ (inv_exit s hs w hws) rfl hqe.symm rfl rfl
          | false =>
            exact Inv.congr _ _ (inv_claim s hs w j rest hw hws hqe) rfl rfl rfl rfl
      | fetching j st => exact hs
      | analyzing j st => exact hs
      | publishing j st found => exact hs
      | done => exact hs
    · simp only [hw, if_false]
      exact hs
  | fetchDone w ok short =>
    simp only [step]
    by_cases hw : w < s.numWorkers
    · simp only [hw, if_true]
      cases hws : s.wstate w with
      | fetching j st =>
        have hheld : heldId (s.wstate w) = some j := by rw [hws]; rfl
        cases ok with
        | false =>
          exact Inv.congr _ _ (inv_finish s hs w j (failedJob "fetch error" st s.clock)
            hw hheld (by simp [failedJob, initJob]) (by simp [failedJob, initJob]))
            rfl rfl rfl rfl
        | true =>
          cases hab : s.abortFlag with
          | true =>
            exact Inv.congr _ _ (inv_finish s hs w j skippedJob hw hheld
              (by simp [skippedJob, initJob]) (by simp [skippedJob, initJob]))
              rfl rfl rfl rfl
          | false =>
            cases short with
            | true =>
              exact Inv.congr _ _ (inv_finish s hs w j
                (failedJob "No content found" st s.clock) hw hheld
                (by simp [failedJob, initJob]) (by simp [failedJob, initJob]))
                rfl rfl rfl rfl
            | false =>
              exact Inv.congr _ _ (inv_advance s hs w j (.analyzing j st)
                { s.jobs j with progress := 30 } hw hheld rfl rfl rfl)
                rfl rfl rfl rfl
      | idle => exact hs
      | analyzing j st => exact hs
      | publishing j st found => exact hs
      | done => exact hs
    · simp only [hw, if_false]
      exact hs
  | analyzeDone w ok found =>
    simp only [step]
    by_cases hw : w < s.numWorkers
    · simp only [hw, if_true]
      cases hws : s.wstate w with
      | analyzing j st =>
        have hheld : heldId (s.wstate w) = some j := by rw [hws]; rfl
        cases ok with
        | false =>
          exact Inv.congr _ _ (inv_finish s hs w j (failedJob "analyze error" st s.clock)
            hw hheld (by simp [failedJob, initJob]) (by simp [failedJob, initJob]))
            rfl rfl rfl rfl
        | true =>
          cases hab : s.abortFlag with
          | true =>
            exact Inv.congr _ _ (inv_finish s hs w j skippedJob hw hheld
              (by simp [skippedJob, initJob]) (by simp [skippedJob, initJob]))
              rfl rfl rfl rfl
          | false =>
            cases hpub : decide (0 < found) && s.autoPublish with
            | true =>
              exact Inv.congr _ _ (inv_advance s hs w j (.publishing j st found)
                { s.jobs j with progress := 85, productsFound := found } hw hheld rfl rfl rfl)
                rfl rfl rfl rfl
            | false =>
              exact Inv.congr _ _ (inv_finish s hs w j (completedJob found st s.clock)
                hw hheld (by simp [completedJob, initJob]) (by simp [completedJob, initJob]))
                rfl rfl rfl rfl
      | idle => exact hs
      | fetching j st => exact hs
      | publishing j st found => exact hs
      | done => exact hs
    · simp only [hw, if_false]
      exact hs
  | publishDone w ok =>
    simp only [step]
    by_cases hw : w < s.numWorkers
    · simp only [hw, if_true]
      cases hws : s.wstate w with
      | publishing j st found =>
        have hheld : heldId (s.wstate w) = some j := by rw [hws]; rfl
        cases ok with
        | true =>
          exact Inv.congr _ _ (inv_finish s hs w j (completedJob found st s.clock)
            hw hheld (by simp [completedJob, initJob]) (by simp [completedJob, initJob]))
            rfl rfl rfl rfl
        | false =>
          exact Inv.congr _ _ (inv_finish s hs w j (failedJob "publish error" st s.clock)
            hw hheld (by simp [failedJob, initJob]) (by simp [failedJob, initJob]))
            rfl rfl rfl rfl
      | idle => exact hs
      | fetching j st => exact hs
      | analyzing j st => exact hs
      | done => exact hs
    · simp only [hw, if_false]
      exact hs

theorem step_numWorkers (s : BState) (a : Action) :
    (step s a).numWorkers = s.numWorkers := by
  cases a <;> simp only [step] <;> (repeat' split) <;> rfl

theorem run_numWorkers (s : BState) (acts : List Action) :
    (run s acts).numWorkers = s.numWorkers := by
  induction acts generalizing s with
  | nil => rfl
  | cons a as ih =>
    show (run (step s a) as).numWorkers = s.numWorkers
    rw [ih (step s a), step_numWorkers]

/-- The invariant holds at every point of every schedule. -/
theorem inv_run (s : BState) (hs : Inv s) (acts : List Action) : Inv (run s acts) := by
  induction acts generalizing s with
  | nil => exact hs
  | cons a as ih =>
    show Inv (run (step s a) as)
    exact ih (step s a) (inv_step s hs a)

/-- In any state satisfying the invariant, the number of jobs in
`Processing` is at most the number of workers. -/
theorem procCount_le (s : BState) (hs : Inv s) : procCount s ≤ s.numWorkers := by
  have hsub : (List.range s.numJobs).filter
      (fun j => (s.jobs j).status == JStatus.processing) ⊆
      (List.range s.numWorkers).filterMap (fun w => heldId (s.wstate w)) := by
    intro j hj
    rw [List.mem_filter] at hj
    obtain ⟨hjr, hjp⟩ := hj
    have hjp2 : (s.jobs j).status = .processing := by simpa using hjp
    obtain ⟨w, hw, hww⟩ := hs.processing_held j hjp2
    rw [List.mem_filterMap]
    exact ⟨w, List.mem_range.mpr hw, hww⟩
  have hnd : ((List.range s.numJobs).filter
      (fun j => (s.jobs j).status == JStatus.processing)).Nodup :=
    List.Nodup.filter _ (List.nodup_range _)
  calc procCount s
      ≤ ((List.range s.numWorkers).filterMap (fun w => heldId (s.wstate w))).length :=
        (List.subperm_of_subset hnd hsub).length_le
    _ ≤ (List.range s.numWorkers).length := List.length_filterMap_le _ _
    _ = s.numWorkers := List.length_range _

/-- Claim C4: for every job list of size `N` and concurrency `K` with
`1 ≤ K ≤ N`, at every point of every schedule of a batch run the number
of jobs simultaneously in `Processing` is at most `K`. -/
theorem batch_concurrency_bound (N K : Nat) (ap : Bool) (acts : List Action)
    (h1 : 1 ≤ K) (h2 : K ≤ N) :
    procCount (run (initState N K ap) acts) ≤ K := by
  have hinv := inv_run (initState N K ap) (inv_init N K ap) acts
  have hle := procCount_le _ hinv
  rw [run_numWorkers] at hle
  exact hle

/-- Witness for claim C4: two jobs, one worker, one claim step — one job
is processing, within the bound. -/
theorem batch_concurrency_bound_witness :
    1 ≤ 1 ∧ 1 ≤ 2 ∧ procCount (run (initState 2 1 false) [.claim 0]) ≤ 1 :=
  ⟨by decide, by decide,
    batch_concurrency_bound 2 1 false [.claim 0] (by decide) (by decide)⟩

end BatchProcessor

namespace BatchProcessor

/-- Status effect of a pointwise job update: the status at `j` is the old
one, or the update hit `j` itself. -/
theorem skip_upd (f : Nat → Job) (j0 : Nat) (nj : Job) (j : Nat)
    (h : (updJob f j0 nj j).status = .skipped) :
    (f j).status = .skipped ∨ (j = j0 ∧ nj.status = .skipped) := by
  by_cases hjj : j = j0
  · rw [hjj, updJob_same] at h
    exact Or.inr ⟨hjj, h⟩
  · rw [updJob_other _ _ _ _ hjj] at h
    exact Or.inl h

/-- Claim C3 (amended): a job becomes `Skipped` only through `processJob`'s
own abort-flag checks — if a step turns a job's status to `Skipped`, the
abort flag was already set (and the job was mid-pipeline); and the
`abort()` step itself changes no job record at all. -/
theorem batch_skip_only_under_abort (s : BState) (a : Action) (j : Nat) :
    (((step s a).jobs j).status = .skipped →
      (s.jobs j).status = .skipped ∨ s.abortFlag = true) ∧
    (step s .abort).jobs j = s.jobs j := by
  refine ⟨?_, rfl⟩
  intro h
  cases a with
  | abort => exact Or.inl h
  | claim w =>
    by_cases hw : w < s.numWorkers
    · cases hws : s.wstate w with
      | idle =>
        cases hqe : s.queue with
        | nil =>
          have h2 : (s.jobs j).status = .skipped := by
            have h3 : ((step s (.claim w)).jobs j).status = .skipped := h
            simp only [step, hw, if_true, hws, hqe] at h3
            exact h3
          exact Or.inl h2
        | cons j0 rest =>
          cases hab : s.abortFlag with
          | true => exact Or.inr rfl
          | false =>
            have h3 : (updJob s.jobs j0 { s.jobs j0 with status := .processing, progress := 10, startTime := some s.clock } j).status = .skipped := by
              have h4 : ((step s (.claim w)).jobs j).status = .skipped := h
              simp only [step, hw, if_true, hws, hqe, hab] at h4
              exact h4
            rcases skip_upd _ _ _ _ h3 with h5 | h5
            · exact Or.inl h5
            · exact absurd h5.2 (by simp)
      | fetching j0 st =>
        have h3 : ((step s (.claim w)).jobs j).status = .skipped := h
        simp only [step, hw, if_true, hws] at h3
        exact Or.inl h3
      | analyzing j0 st =>
        have h3 : ((step s (.claim w)).jobs j).status = .skipped := h
        simp only [step, hw, if_true, hws] at h3
        exact Or.inl h3
      | publishing j0 st found =>
        have h3 : ((step s (.claim w)).jobs j).status = .skipped := h
        simp only [step, hw, if_true, hws] at h3
        exact Or.inl h3
      | done =>
        have h3 : ((step s (.claim w)).jobs j).status = .skipped := h
        simp only [step, hw, if_true, hws] at h3
        exact Or.inl h3
    · have h3 : ((step s (.claim w)).jobs j).status = .skipped := h
      simp only [step, hw, if_false] at h3
      exact Or.inl h3
  | fetchDone w ok short =>
    by_cases hw : w < s.numWorkers
    · cases hws : s.wstate w with
      | fetching j0 st =>
        cases ok with
        | false =>
          have h3 : (updJob s.jobs j0 (failedJob "fetch error" st s.clock) j).status
              = .skipped := by
            have h4 : ((step s (.fetchDone w false short)).jobs j).status = .skipped := h
            simp only [step, hw, if_true, hws, Bool.not_false, Bool.not_true] at h4
            exact h4
          rcases skip_upd _ _ _ _ h3 with h5 | h5
          · exact Or.inl h5
          · exact absurd h5.2 (by simp [failedJob, initJob])
        | true =>
          cases hab : s.abortFlag with
          | true => exact Or.inr rfl
          | false =>
            cases short with
            | true =>
              have h3 : (updJob s.jobs j0 (failedJob "No content found" st s.clock) j).status
                  = .skipped := by
                have h4 : ((step s (.fetchDone w true true)).jobs j).status = .skipped := h
                simp only [step, hw, if_true, hws, hab] at h4
                exact h4
              rcases skip_upd _ _ _ _ h3 with h5 | h5
              · exact Or.inl h5
              · exact absurd h5.2 (by simp [failedJob, initJob])
            | false =>
              have h3 : (updJob s.jobs j0 { s.jobs j0 with progress := 30 } j).status
                  = .skipped := by
                have h4 : ((step s (.fetchDone w true false)).jobs j).status = .skipped := h
                simp only [step, hw, if_true, hws, hab] at h4
                exact h4
              rcases skip_upd _ _ _ _ h3 with h5 | h5
              · exact Or.inl h5
              · refine Or.inl ?_
                rw [h5.1]
                exact h5.2
      | idle =>
        have h3 : ((step s (.fetchDone w ok short)).jobs j).status = .skipped := h
        simp only [step, hw, if_true, hws] at h3
        exact Or.inl h3
      | analyzing j0 st =>
        have h3 : ((step s (.fetchDone w ok short)).jobs j).status = .skipped := h
        simp only [step, hw, if_true, hws] at h3
        exact Or.inl h3
      | publishing j0 st found =>
        have h3 : ((step s (.fetchDone w ok short)).jobs j).status = .skipped := h
        simp only [step, hw, if_true, hws] at h3
        exact Or.inl h3
      | done =>
        have h3 : ((step s (.fetchDone w ok short)).jobs j).status = .skipped := h
        simp only [step, hw, if_true, hws] at h3
        exact Or.inl h3
    · have h3 : ((step s (.fetchDone w ok short)).jobs j).status = .skipped := h
      simp only [step, hw, if_false] at h3
      exact Or.inl h3
  | analyzeDone w ok found =>
    by_cases hw : w < s.numWorkers
    · cases hws : s.wstate w with
      | analyzing j0 st =>
        cases ok with
        | false =>
          have h3 : (updJob s.jobs j0 (failedJob "analyze error" st s.clock) j).status
              = .skipped := by
            have h4 : ((step s (.analyzeDone w false found)).jobs j).status = .skipped := h
            simp only [step, hw, if_true, hws, Bool.not_false, Bool.not_true] at h4
            exact h4
          rcases skip_upd _ _ _ _ h3 with h5 | h5
          · exact Or.inl h5
          · exact absurd h5.2 (by simp [failedJob, initJob])
        | true =>
          cases hab : s.abortFlag with
          | true => exact Or.inr rfl
          | false =>
            cases hpub : decide (0 < found) && s.autoPublish with
            | true =>
              have h3 : (updJob s.jobs j0 { s.jobs j0 with progress := 85, productsFound := found } j).status = .skipped := by
                have h4 : ((step s (.analyzeDone w true found)).jobs j).status = .skipped := h
                simp only [step, hw, if_true, hws, hab, hpub] at h4
                exact h4
              rcases skip_upd _ _ _ _ h3 with h5 | h5
              · exact Or.inl h5
              · refine Or.inl ?_
                rw [h5.1]
                exact h5.2
            | false =>
              have h3 : (updJob s.jobs j0 (completedJob found st s.clock) j).status
                  = .skipped := by
                have h4 : ((step s (.analyzeDone w true found)).jobs j).status = .skipped := h
                simp only [step, hw, if_true, hws, hab, hpub] at h4
                exact h4
              rcases skip_upd _ _ _ _ h3 with h5 | h5
              · exact Or.inl h5
              · exact absurd h5.2 (by simp [completedJob, initJob])
      | idle =>
        have h3 : ((step s (.analyzeDone w ok found)).jobs j).status = .skipped := h
        simp only [step, hw, if_true, hws] at h3
        exact Or.inl h3
      | fetching j0 st =>
        have h3 : ((step s (.analyzeDone w ok found)).jobs j).status = .skipped := h
        simp only [step, hw, if_true, hws] at h3
        exact Or.inl h3
      | publishing j0 st found2 =>
        have h3 : ((step s (.analyzeDone w ok found)).jobs j).status = .skipped := h
        simp only [step, hw, if_true, hws] at h3
        exact Or.inl h3
      | done =>
        have h3 : ((step s (.analyzeDone w ok found)).jobs j).status = .skipped := h
        simp only [step, hw, if_true, hws] at h3
        exact Or.inl h3
    · have h3 : ((step s (.analyzeDone w ok found)).jobs j).status = .skipped := h
      simp only [step, hw, if_false] at h3
      exact Or.inl h3
  | publishDone w ok =>
    by_cases hw : w < s.numWorkers
    · cases hws : s.wstate w with
      | publishing j0 st found =>
        cases ok with
        | true =>
          have h3 : (updJob s.jobs j0 (completedJob found st s.clock) j).status = .skipped := by
            have h4 : ((step s (.publishDone w true)).jobs j).status = .skipped := h
            simp only [step, hw, if_true, hws] at h4
            exact h4
          rcases skip_upd _ _ _ _ h3 with h5 | h5
          · exact Or.inl h5
          · exact absurd h5.2 (by simp [completedJob, initJob])
        | false =>
          have h3 : (updJob s.jobs j0 (failedJob "publish error" st s.clock) j).status
              = .skipped := by
            have h4 : ((step s (.publishDone w false)).jobs j).status = .skipped := h
            simp only [step, hw, if_true, hws] at h4
            exact h4
          rcases skip_upd _ _ _ _ h3 with h5 | h5
          · exact Or.inl h5
          · exact absurd h5.2 (by simp [failedJob, initJob])
      | idle =>
        have h3 : ((step s (.publishDone w ok)).jobs j).status = .skipped := h
        simp only [step, hw, if_true, hws] at h3
        exact Or.inl h3
      | fetching j0 st =>
        have h3 : ((step s (.publishDone w ok)).jobs j).status = .skipped := h
        simp only [step, hw, if_true, hws] at h3
        exact Or.inl h3
      | analyzing j0 st =>
        have h3 : ((step s (.publishDone w ok)).jobs j).status = .skipped := h
        simp only [step, hw, if_true, hws] at h3
        exact Or.inl h3
      | done =>
        have h3 : ((step s (.publishDone w ok)).jobs j).status = .skipped := h
        simp only [step, hw, if_true, hws] at h3
        exact Or.inl h3
    · have h3 : ((step s (.publishDone w ok)).jobs j).status = .skipped := h
      simp only [step, hw, if_false] at h3
      exact Or.inl h3

/-- Witness for claim C3 (amended): with the abort flag set mid-pipeline,
the resolving fetch turns job 0 to `Skipped`, and the theorem locates the
cause in the already-set flag. -/
theorem batch_skip_only_under_abort_witness :
    ((run (initState 1 1 false) [.claim 0, .abort]).jobs 0).status = .skipped ∨
    (run (initState 1 1 false) [.claim 0, .abort]).abortFlag = true :=
  (batch_skip_only_under_abort (run (initState 1 1 false) [.claim 0, .abort])
    (.fetchDone 0 true false) 0).1 (by decide)

/-- Counterexample to claim C3 as stated: job 0 has entered `Processing`,
then `abort()` is called, and the job nevertheless ends `Skipped` (the
mid-pipeline abort check interrupts it), not `Completed` or `Failed`. -/
theorem batch_abort_interrupts_processing_counterexample :
    ((run (initState 1 1 false) [.claim 0]).jobs 0).status = .processing ∧
    ((run (initState 1 1 false) [.claim 0, .abort, .fetchDone 0 true false]).jobs 0).status
      = .skipped := by decide

end BatchProcessor

namespace BatchProcessor

/-- Counterexample to claim C2 as stated: after a resolved run in which
job 0 was claimed, `abort()` fired and the fetch continuation skipped the
job, the job's final status is the terminal `Skipped` yet its
`endTime` is unset — `processJob`'s abort-skip results spread the
pristine job and never set `endTime`. -/
theorem batch_skipped_endTime_counterexample :
    ((run (initState 1 1 false) [.claim 0, .abort, .fetchDone 0 true false, .claim 0]).jobs 0).status = .skipped ∧
    ((run (initState 1 1 false) [.claim 0, .abort, .fetchDone 0 true false, .claim 0]).jobs 0).endTime = none ∧
    resolved (run (initState 1 1 false) [.claim 0, .abort, .fetchDone 0 true false, .claim 0]) = true := by
  decide

/-- Claim C2 (amended): at every point of every batch run — in particular
after the run resolves — a job's `endTime` is set if and only if its
status is `Completed` or `Failed`; `Skipped` jobs never carry an
`endTime`. -/
theorem batch_endTime_iff (N K : Nat) (ap : Bool) (acts : List Action) (j : Nat) :
    ((run (initState N K ap) acts).jobs j).endTime.isSome = true ↔
      (((run (initState N K ap) acts).jobs j).status = .completed ∨
       ((run (initState N K ap) acts).jobs j).status = .failed) :=
  (inv_run (initState N K ap) (inv_init N K ap) acts).time_iff j

/-- The canonical schedule of the claim-C1 scenario: 10 jobs, 3 workers;
each worker synchronously claims one job, `abort()` runs at the first
suspension of `runBatch`, the three in-flight fetches resolve and honour
the flag, and each worker's loop head then observes the flag and
exits. -/
def abortSchedule : List Action :=
  [.claim 0, .claim 1, .claim 2, .abort,
   .fetchDone 0 true false, .fetchDone 1 true false, .fetchDone 2 true false,
   .claim 0, .claim 1, .claim 2]

/-- Counterexample to claim C1 as stated: in the abort-immediately-after-
start scenario with 10 jobs and concurrency 3, the run resolves with the
7 unclaimed jobs still `Queued` — they are never marked `Skipped`,
because a worker that observes the abort flag at its loop head exits
without touching the queue. -/
theorem batch_abort_leaves_queued_counterexample :
    ((run (initState 10 3 false) abortSchedule).jobs 3).status = .queued ∧
    statusCount (run (initState 10 3 false) abortSchedule) .queued = 7 ∧
    statusCount (run (initState 10 3 false) abortSchedule) .skipped = 3 ∧
    resolved (run (initState 10 3 false) abortSchedule) = true := by
  decide

/-- Claim C1 (amended): in the abort-immediately-after-start scenario with
10 jobs and concurrency 3, at most 3 jobs (those already claimed) reach
`Processing` or an execution-derived terminal status — here all 3 end
`Skipped` — while the remaining 7 jobs stay `Queued` for the whole
resolved run; no unclaimed job is marked `Skipped`. -/
theorem batch_abort_scenario :
    statusCount (run (initState 10 3 false) abortSchedule) .skipped = 3 ∧
    statusCount (run (initState 10 3 false) abortSchedule) .processing = 0 ∧
    statusCount (run (initState 10 3 false) abortSchedule) .completed = 0 ∧
    statusCount (run (initState 10 3 false) abortSchedule) .failed = 0 ∧
    statusCount (run (initState 10 3 false) abortSchedule) .queued = 7 ∧
    resolved (run (initState 10 3 false) abortSchedule) = true := by
  decide

end BatchProcessor

namespace TaskQueue

/-- Observable state of one `TaskQueue` instance together with its inner
`p-queue`. Task ids are natural numbers. `waiting` is the FIFO list of
queued-but-not-started work functions; `running` the tasks whose work
function is executing; `controllers` the ids present in the wrapper's
`controllers` map; `abortedIds` the ids whose `AbortController` has been
aborted; `invoked` records every task whose work function has ever been
invoked. -/
structure QState where
  concurrency : Nat
  waiting : List Nat
  running : List Nat
  controllers : List Nat
  abortedIds : List Nat
  invoked : List Nat
deriving DecidableEq, Repr

/-- A `TaskQueue` as built by the constructor: empty, with the given
concurrency. -/
def emptyQueue (c : Nat) : QState :=
  ⟨c, [], [], [], [], []⟩

/-- Modelled from the spec (the `p-queue` dependency is not part of the
source tree; its admission discipline is the one §4.2 describes): adding
a task registers an `AbortController` under its id, then hands the work
function to the inner queue, which invokes it immediately when fewer
than `concurrency` tasks run and otherwise appends it to the FIFO
waiting list. This is `TaskQueue.add`. -/
def add (s : QState) (id : Nat) : QState :=
  if s.running.length < s.concurrency then
    { s with controllers := id :: s.controllers,
             running := id :: s.running,
             invoked := id :: s.invoked }
  else
    { s with controllers := id :: s.controllers,
             waiting := s.waiting ++ [id] }

/-- Modelled from the spec: when a running task settles, the inner queue
starts the next waiting work function, if any — the task is invoked even
if its controller was aborted while it waited. -/
def startNext (s : QState) : QState :=
  match s.waiting with
  | [] => s
  | id :: rest =>
    if s.running.length < s.concurrency then
      { s with waiting := rest,
               running := id :: s.running,
               invoked := id :: s.invoked }
    else s

/-- A running task settles (resolves or rejects): the wrapper deletes its
controller and the inner queue frees the slot. -/
def complete (s : QState) (id : Nat) : QState :=
  { s with running := s.running.erase id,
           controllers := s.controllers.erase id }

/-- `TaskQueue.cancel` from the source: abort the task's controller, if
registered, and delete it from the map — and nothing else; the waiting
list of the inner queue is not touched. -/
def cancel (s : QState) (id : Nat) : QState :=
  if id ∈ s.controllers then
    { s with abortedIds := id :: s.abortedIds,
             controllers := s.controllers.erase id }
  else s

/-- `TaskQueue.clear` from the source: empty the inner queue's waiting
list, abort every registered controller, and clear the map. -/
def clear (s : QState) : QState :=
  { s with waiting := [],
           abortedIds := s.controllers ++ s.abortedIds,
           controllers := [] }

/-- Counterexample to claim C8 as stated: with concurrency 1, task 10
starts running, task 20 waits, `cancel 20` is called while 20 still
waits — yet when task 10 completes, the inner queue invokes task 20's
work function anyway (with an already-aborted signal): `cancel` does not
remove a waiting task from the queue. -/
theorem cancel_waiting_still_invoked_counterexample :
    (cancel (add (add (emptyQueue 1) 10) 20) 20).waiting = [20] ∧
    20 ∈ (startNext (complete (cancel (add (add (emptyQueue 1) 10) 20) 20) 10)).invoked ∧
    20 ∈ (startNext (complete (cancel (add (add (emptyQueue 1) 10) 20) 20) 10)).abortedIds := by
  decide

/-- Claim C8 (amended): `cancel(taskId)` never removes a task from the
waiting list and never prevents a work function from being invoked; it
only aborts the task's registered `AbortController` — so a waiting task
still runs when its turn comes, but (like a running task) it receives an
abort signal it must cooperatively observe. Only `clear()` empties the
waiting list. -/
theorem cancel_signals_only (s : QState) (id : Nat) :
    (cancel s id).waiting = s.waiting ∧
    (cancel s id).running = s.running ∧
    (cancel s id).invoked = s.invoked ∧
    (id ∈ s.controllers → id ∈ (cancel s id).abortedIds) ∧
    (clear s).waiting = [] := by
  refine ⟨?_, ?_, ?_, ?_, rfl⟩
  · unfold cancel
    by_cases h : id ∈ s.controllers <;> simp [h]
  · unfold cancel
    by_cases h : id ∈ s.controllers <;> simp [h]
  · unfold cancel
    by_cases h : id ∈ s.controllers <;> simp [h]
  · intro h
    unfold cancel
    simp [h]

/-- Witness for claim C8 (amended): cancelling the waiting task 20 leaves
the waiting list intact and marks 20's controller aborted. -/
theorem cancel_signals_only_witness :
    (cancel (add (add (emptyQueue 1) 10) 20) 20).waiting
      = (add (add (emptyQueue 1) 10) 20).waiting ∧
    20 ∈ (cancel (add (add (emptyQueue 1) 10) 20) 20).abortedIds :=
  ⟨(cancel_signals_only (add (add (emptyQueue 1) 10) 20) 20).1,
   (cancel_signals_only (add (add (emptyQueue 1) 10) 20) 20).2.2.2.1 (by decide)⟩

end TaskQueue

namespace BatchInsert

/-- The splice loop is total and grows the parts list by exactly one entry
per product: the clamped index never exceeds the current length, so no
insertion is out of bounds. -/
theorem spliceLoop_length (qs : List (DetectedProduct α)) :
    ∀ parts : List α, (spliceLoop parts qs).length = parts.length + qs.length := by
  induction qs with
  | nil => intro parts; rfl
  | cons p rest ih =>
    intro parts
    show (spliceLoop (List.insertIdx
      (min (p.insertionIndex.getD (parts.length : Int)) (parts.length : Int)).toNat
      p.box parts) rest).length = parts.length + (rest.length + 1)
    rw [ih]
    have hle : (min (p.insertionIndex.getD (parts.length : Int))
        (parts.length : Int)).toNat ≤ parts.length := by omega
    rw [List.length_insertIdx _ _ hle]
    omega

/-- Claim C10: the insertion step never indexes out of bounds and never
throws — it is total, and the final length is the original length plus
one slot per kept product; a product whose `insertionIndex` is absent,
not a number, or negative is silently dropped (the result is the
untouched block list); and a product whose index exceeds the current
part count is clamped to the length, appending its box at the end. -/
theorem insertion_index_safety (blocks : List α) (ps : List (DetectedProduct α))
    (q p : DetectedProduct α) (i : Int) :
    ((insertProductBoxes blocks ps).length
      = blocks.length + (ps.filter validIndex).length) ∧
    (validIndex q = false → insertProductBoxes blocks [q] = blocks) ∧
    (p.insertionIndex = some i → (blocks.length : Int) ≤ i →
      insertProductBoxes blocks [p] = blocks ++ [p.box]) := by
  refine ⟨?_, ?_, ?_⟩
  · rw [insertProductBoxes, spliceLoop_length]
    have hperm := List.mergeSort_perm (ps.filter validIndex)
      (fun a b => decide (b.insertionIndex.getD 0 ≤ a.insertionIndex.getD 0))
    rw [sortDesc, hperm.length_eq]
  · intro hq
    rw [insertProductBoxes]
    have hf : [q].filter validIndex = [] := by simp [hq]
    rw [hf, sortDesc, List.mergeSort_nil]
    rfl
  · intro hsome hge
    have hq : validIndex p = true := by
      rw [validIndex, hsome]
      simp
      omega
    rw [insertProductBoxes]
    have hf : [p].filter validIndex = [p] := by simp [hq]
    rw [hf, sortDesc, List.mergeSort_singleton]
    show List.insertIdx
      (min (p.insertionIndex.getD (blocks.length : Int)) (blocks.length : Int)).toNat
      p.box blocks = blocks ++ [p.box]
    rw [hsome]
    have hmin : min i (blocks.length : Int) = (blocks.length : Int) :=
      min_eq_right hge
    rw [Option.getD_some, hmin, Int.toNat_natCast]
    exact List.insertIdx_length_self blocks p.box

/-- Witness for claim C10: an out-of-range index 5 on a 2-block list is
clamped and the box appended; a negative index is dropped; the length
law holds on the same inputs. -/
theorem insertion_index_safety_witness :
    ((insertProductBoxes ["a", "b"] [⟨some (-3), "neg"⟩]).length
      = 2 + ([(⟨some (-3), "neg"⟩ : DetectedProduct String)].filter validIndex).length) ∧
    insertProductBoxes ["a", "b"] [⟨some (-3), "neg"⟩] = ["a", "b"] ∧
    insertProductBoxes ["a", "b"] [⟨some 5, "big"⟩] = ["a", "b", "big"] :=
  ⟨(insertion_index_safety ["a", "b"] [⟨some (-3), "neg"⟩]
      ⟨some (-3), "neg"⟩ ⟨some 5, "big"⟩ 5).1,
   (insertion_index_safety ["a", "b"] [⟨some (-3), "neg"⟩]
      ⟨some (-3), "neg"⟩ ⟨some 5, "big"⟩ 5).2.1 (by decide),
   (insertion_index_safety ["a", "b"] [⟨some (-3), "neg"⟩]
      ⟨some (-3), "neg"⟩ ⟨some 5, "big"⟩ 5).2.2 rfl (by decide)⟩

end BatchInsert

namespace BatchInsert

theorem insertIdx_take_drop (x : α) :
    ∀ (n : Nat) (l : List α), n ≤ l.length →
      List.insertIdx n x l = l.take n ++ x :: l.drop n := by
  intro n
  induction n with
  | zero => intro l _; simp [List.insertIdx_zero]
  | succ n ih =>
    intro l hl
    cases l with
    | nil => simp at hl
    | cons a l' =>
      rw [List.insertIdx_succ_cons, ih l' (by simpa using hl)]
      simp

theorem insertIdx_append_left (x : α) :
    ∀ (n : Nat) (A B : List α), n ≤ A.length →
      List.insertIdx n x (A ++ B) = List.insertIdx n x A ++ B := by
  intro n
  induction n with
  | zero => intro A B _; simp [List.insertIdx_zero]
  | succ n ih =>
    intro A B hn
    cases A with
    | nil => simp at hn
    | cons a A' =>
      rw [List.cons_append, List.insertIdx_succ_cons, List.insertIdx_succ_cons,
        ih A' B (by simpa using hn), List.cons_append]

/-- Where the anchor map has no support, the anchored walk returns the
blocks untouched. -/
theorem anchored_none (f : Nat → Option α) :
    ∀ (bs : List α) (i : Nat), (∀ m, i ≤ m → m < i + bs.length → f m = none) →
      anchored f bs i = bs := by
  intro bs
  induction bs with
  | nil => intro i _; rfl
  | cons b bs' ih =>
    intro i hnone
    have hi : f i = none := hnone i (Nat.le_refl i) (by simp)
    show (match f i with
      | some x => x :: b :: anchored f bs' (i + 1)
      | none => b :: anchored f bs' (i + 1)) = b :: bs'
    rw [hi]
    have hrec := ih (i + 1) (fun m hm1 hm2 => hnone m (by omega) (by
      simp only [List.length_cons]
      omega))
    rw [hrec]

/-- Splitting the anchored walk at the largest anchor: with `f` supported
nowhere past `i + n` and anchored at `i + n` itself, the walk is the walk
of the prefix, the anchored fragment, and the untouched suffix. -/
theorem anchored_split (f : Nat → Option α) (x : α) :
    ∀ (bs : List α) (n i : Nat), n < bs.length → f (i + n) = some x →
      (∀ m, i + n < m → m < i + bs.length → f m = none) →
      anchored f bs i = anchored f (bs.take n) i ++ x :: bs.drop n := by
  intro bs
  induction bs with
  | nil => intro n i hn; simp at hn
  | cons b bs' ih =>
    intro n i hn hx hnone
    cases n with
    | zero =>
      have hfi : f i = some x := by simpa using hx
      show (match f i with
        | some y => y :: b :: anchored f bs' (i + 1)
        | none => b :: anchored f bs' (i + 1)) = anchored f [] i ++ x :: b :: bs'
      rw [hfi]
      have hrest : anchored f bs' (i + 1) = bs' :=
        anchored_none f bs' (i + 1) (fun m hm1 hm2 => by
          refine hnone m (by omega) ?_
          simp only [List.length_cons]
          omega)
      rw [hrest]
      rfl
    | succ n =>
      have hn' : n < bs'.length := by simpa using hn
      have hx' : f ((i + 1) + n) = some x := by
        rw [show (i + 1) + n = i + (n + 1) by omega]
        exact hx
      have hnone' : ∀ m, (i + 1) + n < m → m < (i + 1) + bs'.length → f m = none := by
        intro m hm1 hm2
        exact hnone m (by omega) (by simp; omega)
      have hrec := ih (n) (i + 1) hn' hx' hnone'
      show (match f i with
        | some y => y :: b :: anchored f bs' (i + 1)
        | none => b :: anchored f bs' (i + 1)) =
        anchored f (b :: bs'.take n) i ++ x :: bs'.drop n
      show (match f i with
        | some y => y :: b :: anchored f bs' (i + 1)
        | none => b :: anchored f bs' (i + 1)) =
        (match f i with
          | some y => y :: b :: anchored f (bs'.take n) (i + 1)
          | none => b :: anchored f (bs'.take n) (i + 1)) ++ x :: bs'.drop n
      cases hfi : f i with
      | some y => rw [hrec]; rfl
      | none => rw [hrec]; rfl

/-- The splice loop only touches the prefix when every insertion position
lies within it. -/
theorem spliceLoop_append (qs : List (DetectedProduct α)) :
    ∀ (A B : List α),
      (∀ p ∈ qs, ∃ i : Int, p.insertionIndex = some i ∧ 0 ≤ i ∧ i.toNat ≤ A.length) →
      spliceLoop (A ++ B) qs = spliceLoop A qs ++ B := by
  induction qs with
  | nil => intro A B _; rfl
  | cons p rest ih =>
    intro A B hvalid
    obtain ⟨i, hsome, hnn, hle⟩ := hvalid p (List.mem_cons_self p rest)
    have hidxAB : (min (p.insertionIndex.getD ((A ++ B).length : Int))
        ((A ++ B).length : Int)).toNat = i.toNat := by
      rw [hsome, Option.getD_some]
      have hlen : ((A ++ B).length : Int) = (A.length : Int) + (B.length : Int) := by
        simp
      omega
    have hidxA : (min (p.insertionIndex.getD (A.length : Int))
        (A.length : Int)).toNat = i.toNat := by
      rw [hsome, Option.getD_some]
      omega
    show spliceLoop (List.insertIdx (min (p.insertionIndex.getD ((A ++ B).length : Int))
        ((A ++ B).length : Int)).toNat p.box (A ++ B)) rest =
      spliceLoop (List.insertIdx (min (p.insertionIndex.getD (A.length : Int))
        (A.length : Int)).toNat p.box A) rest ++ B
    rw [hidxAB, hidxA, insertIdx_append_left p.box i.toNat A B hle]
    refine ih (List.insertIdx i.toNat p.box A) B ?_
    intro q hq
    obtain ⟨iq, hqsome, hqnn, hqle⟩ := hvalid q (List.mem_cons_of_mem p hq)
    refine ⟨iq, hqsome, hqnn, ?_⟩
    rw [List.length_insertIdx i.toNat A hle]
    omega

/-- Core refinement: on a strictly descending, valid product list, the
splice loop computes exactly the anchored walk of any anchor map that
carries each product's box at its position and nothing elsewhere. -/
theorem spliceLoop_anchored (f : Nat → Option α) :
    ∀ (qs : List (DetectedProduct α)) (blocks : List α),
      (∀ p ∈ qs, ∃ i : Int, p.insertionIndex = some i ∧ 0 ≤ i ∧ i.toNat < blocks.length) →
      qs.Pairwise (fun a b => natPos b < natPos a) →
      (∀ p ∈ qs, f (natPos p) = some p.box) →
      (∀ n, n < blocks.length → (∀ p ∈ qs, natPos p ≠ n) → f n = none) →
      spliceLoop blocks qs = anchored f blocks 0 := by
  intro qs
  induction qs with
  | nil =>
    intro blocks _ _ _ hf2
    exact (anchored_none f blocks 0 (fun m _ hm =>
      hf2 m (by omega) (fun p hp => absurd hp (List.not_mem_nil p)))).symm
  | cons p rest ih =>
    intro blocks hvalid hsorted hf1 hf2
    obtain ⟨i, hsome, hnn, hlt⟩ := hvalid p (List.mem_cons_self p rest)
    have hnp : natPos p = i.toNat := by rw [natPos, hsome, Option.getD_some]
    have hnplt : natPos p < blocks.length := by rw [hnp]; exact hlt
    have hidx : (min (p.insertionIndex.getD (blocks.length : Int))
        (blocks.length : Int)).toNat = natPos p := by
      rw [hsome, Option.getD_some, hnp]
      omega
    have hheadlt : ∀ q ∈ rest, natPos q < natPos p :=
      fun q hq => (List.pairwise_cons.mp hsorted).1 q hq
    have htlen : (blocks.take (natPos p)).length = natPos p := by
      rw [List.length_take]
      omega
    show spliceLoop (List.insertIdx (min (p.insertionIndex.getD ((blocks).length : Int))
        ((blocks).length : Int)).toNat p.box blocks) rest = anchored f blocks 0
    rw [hidx, insertIdx_take_drop p.box (natPos p) blocks (Nat.le_of_lt hnplt)]
    have hsplit := spliceLoop_append rest (blocks.take (natPos p))
      (p.box :: blocks.drop (natPos p)) ?_
    · rw [hsplit]
      have hrec := ih (blocks.take (natPos p)) ?_ ?_ ?_ ?_
      · rw [hrec]
        exact (anchored_split f p.box blocks (natPos p) 0 hnplt
          (by rw [Nat.zero_add]; exact hf1 p (List.mem_cons_self p rest))
          (fun m hm1 hm2 => hf2 m (by omega) (fun q hq => by
            rcases List.mem_cons.mp hq with h | h
            · rw [h]; omega
            · have := hheadlt q h; omega))).symm
      · intro q hq
        obtain ⟨iq, hqsome, hqnn, _⟩ := hvalid q (List.mem_cons_of_mem p hq)
        refine ⟨iq, hqsome, hqnn, ?_⟩
        have hq2 : natPos q = iq.toNat := by rw [natPos, hqsome, Option.getD_some]
        rw [htlen]
        rw [← hq2]
        exact hheadlt q hq
      · exact (List.pairwise_cons.mp hsorted).2
      · intro q hq
        exact hf1 q (List.mem_cons_of_mem p hq)
      · intro n hn hnone
        refine hf2 n (by omega) ?_
        intro q hq
        rcases List.mem_cons.mp hq with h | h
        · rw [h]
          rw [htlen] at hn
          omega
        · exact hnone q h
    · intro q hq
      obtain ⟨iq, hqsome, hqnn, _⟩ := hvalid q (List.mem_cons_of_mem p hq)
      refine ⟨iq, hqsome, hqnn, ?_⟩
      have hq2 : natPos q = iq.toNat := by rw [natPos, hqsome, Option.getD_some]
      rw [htlen, ← hq2]
      exact Nat.le_of_lt (hheadlt q hq)

end BatchInsert

namespace BatchInsert

/-- When a predicate singles out exactly one list element, `find?` returns
it. -/
theorem find?_unique (p : α → Bool) :
    ∀ (l : List α) (a : α), a ∈ l → p a = true →
      (∀ b ∈ l, p b = true → b = a) → l.find? p = some a := by
  intro l
  induction l with
  | nil => intro a ha; intro _ _; exact absurd ha (List.not_mem_nil a)
  | cons x xs ih =>
    intro a ha hpa huniq
    by_cases hx : p x = true
    · rw [List.find?_cons_of_pos _ hx, huniq x (List.mem_cons_self x xs) hx]
    · rw [List.find?_cons_of_neg _ (by simpa using hx)]
      have ha2 : a ∈ xs := by
        rcases List.mem_cons.mp ha with h | h
        · rw [h] at hpa; exact absurd hpa hx
        · exact h
      exact ih a ha2 hpa (fun b hb hpb => huniq b (List.mem_cons_of_mem x hb) hpb)

/-- Claim C7: for detected products whose insertion positions are pairwise
distinct valid indices into the block array, the coordinator's
descending-order splice produces exactly the anchored interleaving: an
array of length `L + N` carrying every original block in order with each
box placed immediately at its intended anchor offset (no insertion
shifts a not-yet-processed one). -/
theorem insertion_ordering (blocks : List α) (ps : List (DetectedProduct α))
    (hvalid : ∀ p ∈ ps, ∃ i : Int, p.insertionIndex = some i ∧ 0 ≤ i ∧
      i.toNat < blocks.length)
    (hdist : (ps.map natPos).Nodup) :
    insertProductBoxes blocks ps = anchored (posMap ps) blocks 0 ∧
    (insertProductBoxes blocks ps).length = blocks.length + ps.length := by
  have hfil : ps.filter validIndex = ps := List.filter_eq_self.mpr (fun p hp => by
    obtain ⟨i, hsome, hnn, _⟩ := hvalid p hp
    simp [validIndex, hsome, hnn])
  have hperm : (sortDesc ps).Perm ps := by
    rw [sortDesc]
    exact List.mergeSort_perm ps _
  have hmemqs : ∀ p ∈ sortDesc ps, p ∈ ps := fun p hp => hperm.subset hp
  have hvalidqs : ∀ p ∈ sortDesc ps, ∃ i : Int, p.insertionIndex = some i ∧ 0 ≤ i ∧
      i.toNat < blocks.length := fun p hp => hvalid p (hmemqs p hp)
  have hdistqs : ((sortDesc ps).map natPos).Nodup :=
    ((hperm.map natPos).nodup_iff).mpr hdist
  have hne : (sortDesc ps).Pairwise (fun a b => natPos a ≠ natPos b) := by
    have h1 : ((sortDesc ps).map natPos).Pairwise (fun a b => a ≠ b) := hdistqs
    exact List.pairwise_map.mp h1
  have htrans : ∀ (a b c : DetectedProduct α),
      decide (b.insertionIndex.getD 0 ≤ a.insertionIndex.getD 0) = true →
      decide (c.insertionIndex.getD 0 ≤ b.insertionIndex.getD 0) = true →
      decide (c.insertionIndex.getD 0 ≤ a.insertionIndex.getD 0) = true := by
    intro a b c h1 h2
    exact decide_eq_true (le_trans (of_decide_eq_true h2) (of_decide_eq_true h1))
  have htotal : ∀ (a b : DetectedProduct α),
      (decide (b.insertionIndex.getD 0 ≤ a.insertionIndex.getD 0) ||
       decide (a.insertionIndex.getD 0 ≤ b.insertionIndex.getD 0)) = true := by
    intro a b
    rw [Bool.or_eq_true]
    rcases le_total (b.insertionIndex.getD 0) (a.insertionIndex.getD 0) with h | h
    · exact Or.inl (decide_eq_true h)
    · exact Or.inr (decide_eq_true h)
  have hdesc : (sortDesc ps).Pairwise
      (fun a b => (b.insertionIndex.getD 0 ≤ a.insertionIndex.getD 0 : Prop)) := by
    have h1 := List.sorted_mergeSort htrans htotal ps
    rw [sortDesc]
    exact h1.imp (fun h => of_decide_eq_true h)
  have hsorted : (sortDesc ps).Pairwise (fun a b => natPos b < natPos a) := by
    refine (hdesc.and hne).imp_of_mem ?_
    intro a b ha hb hab
    obtain ⟨ia, hasome, hann, _⟩ := hvalidqs a ha
    obtain ⟨ib, hbsome, hbnn, _⟩ := hvalidqs b hb
    obtain ⟨hle, hneq⟩ := hab
    rw [hasome, hbsome, Option.getD_some, Option.getD_some] at hle
    have hna : natPos a = ia.toNat := by rw [natPos, hasome, Option.getD_some]
    have hnb : natPos b = ib.toNat := by rw [natPos, hbsome, Option.getD_some]
    rw [hna, hnb]
    rw [hna, hnb] at hneq
    omega
  have hf1 : ∀ p ∈ sortDesc ps, posMap ps (natPos p) = some p.box := by
    intro p hp
    obtain ⟨i, hsome, hnn, _⟩ := hvalid p (hmemqs p hp)
    have hnp : natPos p = i.toNat := by rw [natPos, hsome, Option.getD_some]
    have hpred : (p.insertionIndex == some ((natPos p : Nat) : Int)) = true := by
      rw [hsome, hnp, beq_iff_eq, Int.toNat_of_nonneg hnn]
    have huniq : ∀ q ∈ ps, (q.insertionIndex == some ((natPos p : Nat) : Int)) = true →
        q = p := by
      intro q hq hqpred
      rw [beq_iff_eq] at hqpred
      have hnq : natPos q = natPos p := by
        rw [natPos, hqpred, Option.getD_some, Int.toNat_natCast]
      exact List.inj_on_of_nodup_map hdist hq (hmemqs p hp) hnq
    rw [posMap, find?_unique _ ps p (hmemqs p hp) hpred huniq]
    rfl
  have hf2 : ∀ n, n < blocks.length → (∀ p ∈ sortDesc ps, natPos p ≠ n) →
      posMap ps n = none := by
    intro n _ hnone
    have hfind : ps.find? (fun q => q.insertionIndex == some ((n : Nat) : Int)) = none := by
      rw [List.find?_eq_none]
      intro q hq hpred
      rw [beq_iff_eq] at hpred
      have hnq : natPos q = n := by
        rw [natPos, hpred, Option.getD_some, Int.toNat_natCast]
      exact hnone q (hperm.mem_iff.mpr hq) hnq
    rw [posMap, hfind]
    rfl
  constructor
  · rw [insertProductBoxes, hfil]
    exact spliceLoop_anchored (posMap ps) (sortDesc ps) blocks hvalidqs hsorted hf1 hf2
  · rw [insertProductBoxes, hfil, spliceLoop_length, hperm.length_eq]

/-- Witness for claim C7: three blocks, boxes anchored at positions 2 and
0, inserted back-to-front — the result interleaves them exactly at their
anchors and has length 5. -/
theorem insertion_ordering_witness :
    insertProductBoxes ["a", "b", "c"]
      [⟨some 2, "y"⟩, ⟨some 0, "x"⟩] =
      anchored (posMap [⟨some 2, "y"⟩, ⟨some 0, "x"⟩]) ["a", "b", "c"] 0 ∧
    (insertProductBoxes ["a", "b", "c"]
      [⟨some 2, "y"⟩, ⟨some 0, "x"⟩]).length = 3 + 2 :=
  insertion_ordering ["a", "b", "c"] [⟨some 2, "y"⟩, ⟨some 0, "x"⟩]
    (by
      intro p hp
      rcases List.mem_cons.mp hp with h | h
      · exact ⟨2, by rw [h], by decide, by rw [List.length_cons]; decide⟩
      · rcases List.mem_cons.mp h with h2 | h2
        · exact ⟨0, by rw [h2], by decide, by rw [List.length_cons]; decide⟩
        · exact absurd h2 (List.not_mem_nil p))
    (by decide)

end BatchInsert
